import Mathlib

/-!
Verification of the 2D particle diffusion simulator.

The development shallowly embeds `src/diffusion_simulator.py` (the core
`diffusion_walk` integrator) and `src/config.py` (`load_config`).  Floating
point arithmetic is idealised as real arithmetic; numpy arrays become lists;
the data-parallel numpy operations over the particle axis are expressed
per particle (the computation is independent across particles, as the code
itself is).  Fallible operations (python exceptions) return `Except`.

The helper modules `geometry.py`, `vector_utils.py` and `step_models.py` are
not part of the sources; where a claim depends on them they are modelled
from the spec (each such definition carries a doc comment starting with
`Modelled from the spec:`).
-/

noncomputable section

namespace DiffusionSim

/-- A 2D point / vector: two real coordinates (one particle's x and y). -/
abbrev Pt := ℝ × ℝ

/-- A wall segment: two 2D endpoints (P1, P2), as in `walls[w] = (P1, P2)`. -/
abbrev Wall := Pt × Pt

/-- The zero vector `(0, 0)`, numpy's `np.zeros(2)`. -/
def pz : Pt := ((0 : ℝ), (0 : ℝ))

/-- Python exceptions that the embedded code can raise. -/
inductive SimError where
  /-- `ConfigurationError`: unknown diffusion-model tag (spec section 7). -/
  | configurationError
  /-- Python `ZeroDivisionError` (raised by `time_final/iterations` at 0). -/
  | zeroDivisionError
  /-- numpy `ValueError` (raised by `np.argmin` over an empty axis). -/
  | valueError
  /-- Model artifact: the unbounded `while True` loop of line 104 is given
  fuel; this value marks fuel exhaustion, never a behaviour of the code. -/
  | nonConvergence

/-- `EPS = 1e-10` from line 12 of `diffusion_simulator.py`. -/
def EPS : ℝ := 1 / 10 ^ 10

/-- Dot product of two 2D vectors. -/
def dot (v w : Pt) : ℝ := v.1 * w.1 + v.2 * w.2

/-- 2D cross product (z-component of the 3D cross product). -/
def cross (v w : Pt) : ℝ := v.1 * w.2 - v.2 * w.1

/-- Euclidean norm of a 2D vector, `np.linalg.norm(v, axis=-1)` per row. -/
def pnorm (v : Pt) : ℝ := Real.sqrt (v.1 ^ 2 + v.2 ^ 2)

/-- Modelled from the spec: `geometry.find_intersection` is not under `src/`.
Spec section 4.2 describes it as the standard 2D segment-segment
intersection: for the travel segment `p → q` and the wall segment `a → b`,
parallel or non-overlapping segments are "not intersected" (the point value
is don't-care, here `(0,0)`), and a crossing counts only when it lies within
both segments.  This is the per-(particle, wall) entry of the vectorized
call on line 113 of `diffusion_simulator.py`. -/
def find_intersection (p q a b : Pt) : Pt × Bool :=
  let r := q - p
  let s := b - a
  let d := cross r s
  if d = 0 then (pz, false)
  else
    let t := cross (a - p) s / d
    let u := cross (a - p) r / d
    if 0 ≤ t ∧ t ≤ 1 ∧ 0 ≤ u ∧ u ≤ 1 then (p + t • r, true) else (pz, false)

/-- Modelled from the spec: `geometry.find_reflection_angle` and
`vector_utils.rotate_vector_batched` are not under `src/`.  Spec section 4.3
says their composition (lines 160-175 of `diffusion_simulator.py`) mirrors
the full step vector about the chosen wall: rotating the incident vector by
twice the incidence angle relative to the wall's orientation is exactly the
reflection of `v` about the wall direction `u`, i.e. `2 proj_u(v) - v`. -/
def reflect_step (v : Pt) (w : Wall) : Pt :=
  let u := w.2 - w.1
  (2 * dot v u / dot u u) • u - v

/-- Per-particle row of `wall_hit, wall_intersected` (lines 113-118):
one `(hit point, intersected)` record per wall. -/
def wall_records (c n : Pt) (walls : List Wall) : List (Pt × Bool) :=
  walls.map fun w => find_intersection c n w.1 w.2

/-- Per-particle row of `wall_distances` (lines 120-128): Euclidean distance
from the current position to each hit point, with walls that were not
intersected set to `np.inf` (modelled as `⊤` in `WithTop ℝ`). -/
def wall_distances (c : Pt) (recs : List (Pt × Bool)) : List (WithTop ℝ) :=
  recs.map fun rec => if rec.2 then ((pnorm (c - rec.1) : ℝ) : WithTop ℝ) else ⊤

/-- `np.argmin` along the wall axis (line 131): index of the first minimal
entry.  numpy raises on an empty axis; that case is handled by the caller
(`innerPass`), so the value at `[]` here is irrelevant. -/
def argminIdx : List (WithTop ℝ) → ℕ
  | [] => 0
  | x :: xs =>
    let k := argminIdx xs
    if xs.getD k ⊤ < x then k + 1 else 0

/-- `closest_wall_index` for one particle (lines 131-134). -/
def closest_wall_index (dists : List (WithTop ℝ)) : ℕ := argminIdx dists

/-- The chosen wall index for a particle at `c` with tentative position `n`. -/
def closest_idx (walls : List Wall) (c n : Pt) : ℕ :=
  closest_wall_index (wall_distances c (wall_records c n walls))

/-- `closest_hit_pos` for one particle (lines 140-144). -/
def closest_hit (walls : List Wall) (c n : Pt) : Pt :=
  ((wall_records c n walls).getD (closest_idx walls c n) (pz, false)).1

/-- `particle_intersected` for one particle (lines 153-157): the intersected
flag of the wall selected by `argmin`. -/
def particle_intersected (walls : List Wall) (c n : Pt) : Bool :=
  ((wall_records c n walls).getD (closest_idx walls c n) (pz, false)).2

/-- `next_step_bounce` for one particle (lines 159-191, 210): the step vector
mirrored about the chosen wall, rescaled by
`remaining_step_len / (total_step_len + EPS)`. -/
def next_step_bounce (walls : List Wall) (c n : Pt) : Pt :=
  (pnorm (closest_hit walls c n - n) / (pnorm (n - c) + EPS)) •
    reflect_step (n - c) (walls.getD (closest_idx walls c n) (pz, pz))

/-- `current_pos_bounce` for one particle (lines 196-197): the hit point
nudged back toward the pre-hit position by the fraction `EPS`. -/
def current_pos_bounce (walls : List Wall) (c : Pt) (n : Pt) : Pt :=
  closest_hit walls c n - EPS • (closest_hit walls c n - c)

/-- One particle's slice of one pass of the inner `while True` loop
(lines 104-216): returns the updated position, the pending step for the
next pass, and the particle's intersected flag. -/
def passParticle (walls : List Wall) (c s : Pt) : Pt × Pt × Bool :=
  let n := c + s
  (if particle_intersected walls c n then current_pos_bounce walls c n else n,
   if particle_intersected walls c n then next_step_bounce walls c n else pz,
   particle_intersected walls c n)

/-- One pass of the inner loop over the whole ensemble (lines 104-220).
With an empty wall set, `np.argmin` over the empty wall axis (line 131)
raises `ValueError`.  The third component is `np.any(particle_intersected)`
(the negation of the `break` condition on line 219). -/
def innerPass (walls : List Wall) (cur stp : List Pt) :
    Except SimError (List Pt × List Pt × Bool) :=
  if walls.isEmpty then .error .valueError
  else
    let out := (cur.zip stp).map fun cs => passParticle walls cs.1 cs.2
    .ok (out.map (·.1), out.map (fun o => o.2.1), out.any (fun o => o.2.2))

/-- The inner `while True` loop (lines 104-220): repeat passes until no
particle intersected, then commit the current positions.  The loop in the
code is unbounded; `fuel` bounds it in the model, with the artificial
`nonConvergence` error on exhaustion. -/
def resolveLoop (walls : List Wall) : ℕ → List Pt → List Pt → Except SimError (List Pt)
  | 0, _, _ => .error .nonConvergence
  | Nat.succ f, cur, stp =>
    match innerPass walls cur stp with
    | .error e => .error e
    | .ok (cur', stp', anyInt) =>
      if anyInt then resolveLoop walls f cur' stp' else .ok cur'

/-- Modelled from the spec: `step_models.generate_step` is not under `src/`.
Spec sections 4.1 and 7: exactly the tags `"constant"` and `"mapped"` are
recognized and an unknown tag fails with `ConfigurationError`.  The
stochastic displacement itself is modelled by oracles giving the realized
draw for each timestep: for the `"constant"` model the draw is independent
of positions and field values (pure Gaussian noise), while the `"mapped"`
model may both read and update the field values `T_vals`. -/
def generate_step (tag : String) (oracleC : ℕ → List Pt)
    (oracleM : ℕ → List ℝ → List Pt × List ℝ) (i : ℕ) (T_vals : List ℝ) :
    Except SimError (List Pt × List ℝ) :=
  if tag = "constant" then .ok (oracleC i, T_vals)
  else if tag = "mapped" then .ok (oracleM i T_vals)
  else .error .configurationError

/-- Python's `time_final/iterations` (line 76): raises `ZeroDivisionError`
when `iterations` is zero. -/
def pyDiv (a : ℝ) (n : ℕ) : Except SimError ℝ :=
  if n = 0 then .error .zeroDivisionError else .ok (a / n)

/-- The timestep loop `for i in range(1, iterations)` (lines 88-225),
carrying the current committed positions and the field-value row, and
collecting the committed slices `X[:, i, :]` for `i = 1, ..`.  The last
argument counts the remaining iterations. -/
def walkAux (walls : List Wall) (tag : String) (oracleC : ℕ → List Pt)
    (oracleM : ℕ → List ℝ → List Pt × List ℝ) (fuel : ℕ) :
    ℕ → List Pt → List ℝ → ℕ → Except SimError (List (List Pt))
  | _, _, _, 0 => .ok []
  | i, cur, T, Nat.succ r =>
    match generate_step tag oracleC oracleM i T with
    | .error e => .error e
    | .ok (stp, T') =>
      match resolveLoop walls fuel cur stp with
      | .error e => .error e
      | .ok nxt =>
        match walkAux walls tag oracleC oracleM fuel (i + 1) nxt T' r with
        | .error e => .error e
        | .ok rest => .ok (nxt :: rest)

/-- `diffusion_walk` (lines 14-227 of `diffusion_simulator.py`), time-major:
the result is the list of committed timestep slices, slice 0 being `X0`
(line 81).  The function returns only the position tensor `X` (line 227);
the field-value array `T_vals` is allocated and initialized internally
(lines 85-86) and threaded through `generate_step` (line 100), but is not
part of the return value.  `diff` scales the Gaussian draws inside the
missing `step_models.py` and is therefore absorbed by the oracles. -/
def diffusion_walk (X0 : List Pt) (T0_vals : List ℝ) (time_final : ℝ) (diff : ℝ)
    (iterations : ℕ) (walls : List Wall) (diffusion_model : String)
    (oracleC : ℕ → List Pt) (oracleM : ℕ → List ℝ → List Pt × List ℝ)
    (fuel : ℕ) : Except SimError (List (List Pt)) :=
  match pyDiv time_final iterations with
  | .error e => .error e
  | .ok _dt =>
    match walkAux walls diffusion_model oracleC oracleM fuel 1 X0 T0_vals
        (iterations - 1) with
    | .error e => .error e
    | .ok rest => .ok (X0 :: rest)

/-- A region of the plane closed under taking points of segments between its
members: `p + t • (q - p) ∈ S` for `p, q ∈ S`, `t ∈ [0, 1]` (convexity). -/
def SegConvex (S : Set Pt) : Prop :=
  ∀ p ∈ S, ∀ q ∈ S, ∀ t : ℝ, 0 ≤ t → t ≤ 1 → p + t • (q - p) ∈ S

/-- The wall set bounds `S`: every travel segment leaving `S` is detected as
intersecting some wall.  This is the "wall-bounded domain" premise of the
invariant. -/
def Covers (walls : List Wall) (S : Set Pt) : Prop :=
  ∀ p q : Pt, p ∈ S → q ∉ S → ∃ w ∈ walls, (find_intersection p q w.1 w.2).2 = true

/-- A numpy array value as produced by `config.py`: either a flat 1-D vector
(`np.zeros(N)`, `np.ones(N)`) or an N×2 matrix. -/
inductive NDArr where
  | vec (v : List ℝ)
  | mat (m : List (List ℝ))

/-- The base (overridable) configuration dictionary of `load_config`
(`src/config.py` lines 29-38), fields in source order. -/
structure ConfigBase where
  seed : ℕ
  number_of_realizations : ℕ
  final_time : ℝ
  diffusion_coefficient : ℝ
  number_of_bins_in_histogram : ℕ
  domain_type : String
  domain_size : ℝ
  diffusion_model : String

/-- The default values of the base configuration (`config.py` lines 29-38). -/
def base_config : ConfigBase :=
  ConfigBase.mk 52 (10 ^ 6) 1 1 100 "half_plane" 1 "constant"

/-- The full configuration returned by `load_config`: the (possibly
overridden) base entries plus the derived arrays of lines 44-50. -/
structure Config extends ConfigBase where
  initial_positions : NDArr
  initial_T_values : NDArr
  wall_array : List Wall

/-- `load_config` (`src/config.py` lines 13-52).  The `overrides` dict update
of line 42 is modelled as a transformer of the base record; the derived
arrays are computed afterwards, exactly as in the source (so a derived entry
supplied in `overrides` is recomputed and has no effect).
`geometry.define_wall_segments` is not under `src/` and the spec calls the
wall builder out of scope, so it is passed in as a parameter. -/
def load_config (define_wall_segments : String → ℝ → List Wall)
    (overrides : ConfigBase → ConfigBase) : Config :=
  let cfg := overrides base_config
  Config.mk cfg
    (NDArr.vec (List.replicate cfg.number_of_realizations 0))
    (NDArr.vec (List.replicate cfg.number_of_realizations 1))
    (define_wall_segments cfg.domain_type cfg.domain_size)

/-- Concrete wall set used in the example theorems: the x-axis segment
from (-1,0) to (1,0) (the single-bounce scenario of spec section 8). -/
def exWalls : List Wall := [(((-1 : ℝ), (0 : ℝ)), ((1 : ℝ), (0 : ℝ)))]

/-- Concrete pre-step position used in the example theorems: (0, 1/2). -/
def exC : Pt := ((0 : ℝ), (1 / 2 : ℝ))

/-- Concrete tentative position used in the example theorems: (0, -1/2),
i.e. the proposed displacement (0, -1) from `exC`. -/
def exN : Pt := ((0 : ℝ), (-(1 / 2) : ℝ))

/-- A wall well away from the origin, used in example theorems about
particles that do not intersect anything. -/
def exWallTop : Wall := (((-1 : ℝ), (1 : ℝ)), ((1 : ℝ), (1 : ℝ)))

/-! ### List indexing helpers -/

theorem getD_map {α β : Type} (f : α → β) (l : List α) (i : ℕ) (d : β) (d' : α)
    (h : i < l.length) : (l.map f).getD i d = f (l.getD i d') := by
  induction l generalizing i with
  | nil => simp at h
  | cons a l ih =>
    cases i with
    | zero => simp
    | succ i =>
      simp only [List.map_cons, List.getD_cons_succ]
      exact ih i (by simpa using h)

theorem getD_map_const {α β : Type} (l : List α) (b : β) (k : ℕ) :
    (l.map fun _ => b).getD k b = b := by
  induction l generalizing k with
  | nil => simp
  | cons a l ih =>
    cases k with
    | zero => simp
    | succ k => simpa using ih k

theorem getD_zip (l1 l2 : List Pt) (j : ℕ) (h1 : j < l1.length)
    (h2 : j < l2.length) :
    (l1.zip l2).getD j (pz, pz) = (l1.getD j pz, l2.getD j pz) := by
  induction l1 generalizing l2 j with
  | nil => simp at h1
  | cons a l ih =>
    cases l2 with
    | nil => simp at h2
    | cons b l2 =>
      cases j with
      | zero => simp
      | succ j =>
        simp only [List.zip_cons_cons, List.getD_cons_succ]
        exact ih l2 j (by simpa using h1) (by simpa using h2)

theorem getD_oob {α : Type} (l : List α) (i : ℕ) (d : α) (h : l.length ≤ i) :
    l.getD i d = d := by
  induction l generalizing i with
  | nil => simp
  | cons a l ih =>
    cases i with
    | zero => simp at h
    | succ i =>
      simp only [List.getD_cons_succ]
      exact ih i (by simpa using h)

/-! ### argmin (`np.argmin` along the wall axis) -/

theorem argminIdx_cons (x : WithTop ℝ) (xs : List (WithTop ℝ)) :
    argminIdx (x :: xs) =
      if xs.getD (argminIdx xs) ⊤ < x then argminIdx xs + 1 else 0 := rfl

theorem argminIdx_le (l : List (WithTop ℝ)) : ∀ m : ℕ,
    l.getD (argminIdx l) ⊤ ≤ l.getD m ⊤ := by
  induction l with
  | nil => intro m; simp [argminIdx]
  | cons x xs ih =>
    intro m
    by_cases h : xs.getD (argminIdx xs) ⊤ < x
    · rw [argminIdx_cons, if_pos h]
      cases m with
      | zero => simpa using le_of_lt h
      | succ m => simpa using ih m
    · rw [argminIdx_cons, if_neg h]
      cases m with
      | zero => simp
      | succ m =>
        simp only [List.getD_cons_zero, List.getD_cons_succ]
        exact le_trans (not_lt.mp h) (ih m)

theorem argminIdx_lt : ∀ l : List (WithTop ℝ), l ≠ [] → argminIdx l < l.length := by
  intro l hl
  induction l with
  | nil => exact absurd rfl hl
  | cons x xs ih =>
    by_cases h : xs.getD (argminIdx xs) ⊤ < x
    · have hxs : xs ≠ [] := by
        intro he
        subst he
        simp only [List.getD_nil] at h
        exact absurd h (not_top_lt)
      have hk := ih hxs
      rw [argminIdx_cons, if_pos h]
      simpa using Nat.succ_lt_succ hk
    · rw [argminIdx_cons, if_neg h]
      simp

/-! ### Geometry lemmas -/

theorem pnorm_nonneg (v : Pt) : 0 ≤ pnorm v := Real.sqrt_nonneg _

theorem pnorm_smul (t : ℝ) (v : Pt) : pnorm (t • v) = |t| * pnorm v := by
  unfold pnorm
  have h : (t • v).1 ^ 2 + (t • v).2 ^ 2 = t ^ 2 * (v.1 ^ 2 + v.2 ^ 2) := by
    simp only [Prod.smul_fst, Prod.smul_snd, smul_eq_mul]
    ring
  rw [h, Real.sqrt_mul (sq_nonneg t), Real.sqrt_sq_eq_abs]

theorem pnorm_reflect (v : Pt) (w : Wall) : pnorm (reflect_step v w) = pnorm v := by
  obtain ⟨v1, v2⟩ := v
  obtain ⟨⟨a1, a2⟩, b1, b2⟩ := w
  unfold reflect_step pnorm dot
  simp only [Prod.fst_sub, Prod.snd_sub, Prod.smul_fst, Prod.smul_snd, smul_eq_mul]
  by_cases h : (b1 - a1) * (b1 - a1) + (b2 - a2) * (b2 - a2) = 0
  · have h1 : b1 - a1 = 0 := by nlinarith [sq_nonneg (b1 - a1), sq_nonneg (b2 - a2)]
    have h2 : b2 - a2 = 0 := by nlinarith [sq_nonneg (b1 - a1), sq_nonneg (b2 - a2)]
    rw [h1, h2]
    congr 1
    ring
  · congr 1
    field_simp [h]
    ring

theorem find_intersection_hit_mem {p q a b h : Pt}
    (hI : find_intersection p q a b = (h, true)) :
    ∃ u : ℝ, 0 ≤ u ∧ u ≤ 1 ∧ h = a + u • (b - a) := by
  unfold find_intersection at hI
  by_cases hd : cross (q - p) (b - a) = 0
  · simp [hd] at hI
  · simp only [hd, if_false] at hI
    by_cases hc : 0 ≤ cross (a - p) (b - a) / cross (q - p) (b - a) ∧
        cross (a - p) (b - a) / cross (q - p) (b - a) ≤ 1 ∧
        0 ≤ cross (a - p) (q - p) / cross (q - p) (b - a) ∧
        cross (a - p) (q - p) / cross (q - p) (b - a) ≤ 1
    · rw [if_pos hc] at hI
      obtain ⟨h1, h2, h3, h4⟩ := hc
      refine ⟨cross (a - p) (q - p) / cross (q - p) (b - a), h3, h4, ?_⟩
      have hh : h = p + (cross (a - p) (b - a) / cross (q - p) (b - a)) • (q - p) :=
        (congrArg Prod.fst hI).symm
      rw [hh]
      obtain ⟨p1, p2⟩ := p
      obtain ⟨q1, q2⟩ := q
      obtain ⟨x1, x2⟩ := a
      obtain ⟨y1, y2⟩ := b
      unfold cross at hd ⊢
      simp only [Prod.fst_sub, Prod.snd_sub] at hd
      apply Prod.ext
      · simp only [Prod.fst_add, Prod.smul_fst, Prod.fst_sub, Prod.snd_sub,
          smul_eq_mul]
        field_simp [hd]
        ring
      · simp only [Prod.snd_add, Prod.smul_snd, Prod.fst_sub, Prod.snd_sub,
          smul_eq_mul]
        field_simp [hd]
        ring
    · rw [if_neg hc] at hI
      simp at hI

/-! ### More indexing helpers -/

theorem getD_eq_get {α : Type} : ∀ (l : List α) (k : ℕ) (d : α) (h : k < l.length),
    l.getD k d = l.get ⟨k, h⟩ := by
  intro l
  induction l with
  | nil => intro k d h; simp at h
  | cons a l ih =>
    intro k d h
    cases k with
    | zero => simp
    | succ k =>
      simp only [List.getD_cons_succ, List.get_cons_succ]
      exact ih k d (by simpa using h)

theorem getD_mem {α : Type} (l : List α) (k : ℕ) (d : α) (h : k < l.length) :
    l.getD k d ∈ l := by
  rw [getD_eq_get l k d h]
  exact List.get_mem l k h

/-! ### Unfolding equations for the loop functions -/

theorem resolveLoop_zero (walls : List Wall) (cur stp : List Pt) :
    resolveLoop walls 0 cur stp = .error .nonConvergence := rfl

theorem resolveLoop_succ (walls : List Wall) (f : ℕ) (cur stp : List Pt) :
    resolveLoop walls (f + 1) cur stp =
      match innerPass walls cur stp with
      | .error e => .error e
      | .ok (cur', stp', anyInt) =>
        if anyInt then resolveLoop walls f cur' stp' else .ok cur' := rfl

theorem walkAux_zero (walls : List Wall) (tag : String) (oC : ℕ → List Pt)
    (oM : ℕ → List ℝ → List Pt × List ℝ) (fuel i : ℕ) (cur : List Pt)
    (T : List ℝ) : walkAux walls tag oC oM fuel i cur T 0 = .ok [] := rfl

theorem walkAux_succ (walls : List Wall) (tag : String) (oC : ℕ → List Pt)
    (oM : ℕ → List ℝ → List Pt × List ℝ) (fuel i : ℕ) (cur : List Pt)
    (T : List ℝ) (r : ℕ) :
    walkAux walls tag oC oM fuel i cur T (r + 1) =
      match generate_step tag oC oM i T with
      | .error e => .error e
      | .ok (stp, T') =>
        match resolveLoop walls fuel cur stp with
        | .error e => .error e
        | .ok nxt =>
          match walkAux walls tag oC oM fuel (i + 1) nxt T' r with
          | .error e => .error e
          | .ok rest => .ok (nxt :: rest) := rfl

/-! ### Structure of one inner-loop pass -/

theorem innerPass_ok {walls : List Wall} {cur stp P Q : List Pt} {b : Bool}
    (h : innerPass walls cur stp = .ok (P, Q, b)) :
    walls ≠ [] ∧
    P = ((cur.zip stp).map fun cs => passParticle walls cs.1 cs.2).map (·.1) ∧
    Q = ((cur.zip stp).map fun cs => passParticle walls cs.1 cs.2).map
      (fun o => o.2.1) := by
  unfold innerPass at h
  by_cases hw : walls.isEmpty
  · rw [if_pos hw] at h
    cases h
  · rw [if_neg hw] at h
    simp only [Except.ok.injEq, Prod.mk.injEq] at h
    exact ⟨by simpa [List.isEmpty_iff] using hw, h.1.symm, h.2.1.symm⟩

/-- A particle position produced by one pass stays in a segment-convex
region bounded by the walls. -/
theorem passParticle_fst_mem {S : Set Pt} (hconv : SegConvex S)
    {walls : List Wall} (hw : ∀ w ∈ walls, w.1 ∈ S ∧ w.2 ∈ S)
    (hcov : Covers walls S) {c : Pt} (s : Pt) (hc : c ∈ S) :
    (passParticle walls c s).1 ∈ S := by
  have hpp : (passParticle walls c s).1 =
      if particle_intersected walls c (c + s) then
        current_pos_bounce walls c (c + s) else (c + s) := rfl
  rw [hpp]
  by_cases hpi : particle_intersected walls c (c + s) = true
  · rw [if_pos hpi]
    -- the chosen wall index is in range, else the flag would be false
    have hlen : (wall_records c (c + s) walls).length = walls.length := by
      simp [wall_records]
    have hk : closest_idx walls c (c + s) < walls.length := by
      by_contra hge
      push_neg at hge
      unfold particle_intersected at hpi
      rw [getD_oob _ _ _ (by rw [hlen]; exact hge)] at hpi
      simp at hpi
    -- the chosen record is the exact intersection with the chosen wall
    have hrec : (wall_records c (c + s) walls).getD (closest_idx walls c (c + s))
        (pz, false) =
        find_intersection c (c + s) (walls.getD (closest_idx walls c (c + s))
          (pz, pz)).1 (walls.getD (closest_idx walls c (c + s)) (pz, pz)).2 := by
      unfold wall_records
      exact getD_map _ walls _ (pz, false) (pz, pz) hk
    have hhit : find_intersection c (c + s)
        (walls.getD (closest_idx walls c (c + s)) (pz, pz)).1
        (walls.getD (closest_idx walls c (c + s)) (pz, pz)).2 =
        (closest_hit walls c (c + s), true) := by
      rw [← hrec]
      apply Prod.ext
      · rfl
      · exact hpi
    obtain ⟨u, hu0, hu1, hup⟩ := find_intersection_hit_mem hhit
    have hwmem := hw _ (getD_mem walls (closest_idx walls c (c + s)) (pz, pz) hk)
    have hhitS : closest_hit walls c (c + s) ∈ S := by
      rw [hup]
      exact hconv _ hwmem.1 _ hwmem.2 u hu0 hu1
    have heq : current_pos_bounce walls c (c + s) =
        c + (1 - EPS) • (closest_hit walls c (c + s) - c) := by
      unfold current_pos_bounce
      apply Prod.ext
      · simp only [Prod.fst_sub, Prod.fst_add, Prod.smul_fst, smul_eq_mul]
        ring
      · simp only [Prod.snd_sub, Prod.snd_add, Prod.smul_snd, smul_eq_mul]
        ring
    rw [heq]
    exact hconv _ hc _ hhitS (1 - EPS) (by norm_num [EPS]) (by norm_num [EPS])
  · rw [if_neg hpi]
    by_contra hn
    obtain ⟨w, hwmem, hwint⟩ := hcov c (c + s) hc hn
    obtain ⟨⟨m, hm⟩, hget⟩ := List.mem_iff_get.mp hwmem
    -- the distance row has a finite entry at index m
    have hdists : wall_distances c (wall_records c (c + s) walls) =
        walls.map fun w => if (find_intersection c (c + s) w.1 w.2).2 then
          ((pnorm (c - (find_intersection c (c + s) w.1 w.2).1) : ℝ) : WithTop ℝ)
          else ⊤ := by
      unfold wall_distances wall_records
      rw [List.map_map]
      rfl
    have hdlen : (wall_distances c (wall_records c (c + s) walls)).length =
        walls.length := by rw [hdists]; simp
    have hmval : (wall_distances c (wall_records c (c + s) walls)).getD m ⊤ =
        ((pnorm (c - (find_intersection c (c + s) w.1 w.2).1) : ℝ) : WithTop ℝ) := by
      rw [hdists, getD_map _ walls m ⊤ (pz, pz) hm, getD_eq_get walls m (pz, pz) hm,
        hget, hwint]
      simp
    have hle := argminIdx_le (wall_distances c (wall_records c (c + s) walls)) m
    rw [hmval] at hle
    have hkd : closest_idx walls c (c + s) <
        (wall_distances c (wall_records c (c + s) walls)).length := by
      apply argminIdx_lt
      intro he
      rw [he] at hdlen
      simp at hdlen
      omega
    -- the selected entry is below ⊤, so its flag must be true
    have hflag : particle_intersected walls c (c + s) = false := by
      rw [← Bool.not_eq_true]
      exact hpi
    have hkval : (wall_distances c (wall_records c (c + s) walls)).getD
        (closest_idx walls c (c + s)) ⊤ =
        (if particle_intersected walls c (c + s) then
          ((pnorm (c - closest_hit walls c (c + s)) : ℝ) : WithTop ℝ)
          else ⊤) := by
      unfold wall_distances
      exact getD_map _ _ _ ⊤ (pz, false) (by
        rw [hdlen] at hkd
        simpa [wall_records] using hkd)
    rw [hflag, if_neg (by simp)] at hkval
    have hkeq : closest_idx walls c (c + s) =
        argminIdx (wall_distances c (wall_records c (c + s) walls)) := rfl
    rw [hkeq] at hkval
    rw [hkval] at hle
    exact absurd (top_le_iff.mp hle) (WithTop.coe_ne_top)

theorem innerPass_fst_mem {S : Set Pt} (hconv : SegConvex S)
    {walls : List Wall} (hw : ∀ w ∈ walls, w.1 ∈ S ∧ w.2 ∈ S)
    (hcov : Covers walls S) {cur stp P Q : List Pt} {b : Bool}
    (h : innerPass walls cur stp = .ok (P, Q, b))
    (hcur : ∀ p ∈ cur, p ∈ S) : ∀ p ∈ P, p ∈ S := by
  obtain ⟨-, hP, -⟩ := innerPass_ok h
  subst hP
  intro p hp
  simp only [List.mem_map] at hp
  obtain ⟨o, ⟨cs, hcs, rfl⟩, rfl⟩ := hp
  obtain ⟨c, s⟩ := cs
  exact passParticle_fst_mem hconv hw hcov s (hcur _ (List.of_mem_zip hcs).1)

theorem resolveLoop_mem {S : Set Pt} (hconv : SegConvex S)
    {walls : List Wall} (hw : ∀ w ∈ walls, w.1 ∈ S ∧ w.2 ∈ S)
    (hcov : Covers walls S) :
    ∀ (f : ℕ) (cur stp res : List Pt), resolveLoop walls f cur stp = .ok res →
      (∀ p ∈ cur, p ∈ S) → ∀ p ∈ res, p ∈ S := by
  intro f
  induction f with
  | zero =>
    intro cur stp res h
    rw [resolveLoop_zero] at h
    cases h
  | succ f ih =>
    intro cur stp res h hcur
    rw [resolveLoop_succ] at h
    cases hin : innerPass walls cur stp with
    | error e => rw [hin] at h; cases h
    | ok triple =>
      obtain ⟨P, Q, b⟩ := triple
      rw [hin] at h
      dsimp only at h
      have hP := innerPass_fst_mem hconv hw hcov hin hcur
      by_cases hb : b = true
      · rw [if_pos hb] at h
        exact ih P Q res h hP
      · rw [if_neg hb] at h
        injection h with h
        subst h
        exact hP

theorem walkAux_mem {S : Set Pt} (hconv : SegConvex S)
    {walls : List Wall} (hw : ∀ w ∈ walls, w.1 ∈ S ∧ w.2 ∈ S)
    (hcov : Covers walls S) {tag : String} {oC : ℕ → List Pt}
    {oM : ℕ → List ℝ → List Pt × List ℝ} {fuel : ℕ} :
    ∀ (r i : ℕ) (cur : List Pt) (T : List ℝ) (out : List (List Pt)),
      walkAux walls tag oC oM fuel i cur T r = .ok out →
      (∀ p ∈ cur, p ∈ S) → ∀ sl ∈ out, ∀ p ∈ sl, p ∈ S := by
  intro r
  induction r with
  | zero =>
    intro i cur T out h hcur
    rw [walkAux_zero] at h
    injection h with h
    subst h
    intro sl hsl
    simp at hsl
  | succ r ih =>
    intro i cur T out h hcur
    rw [walkAux_succ] at h
    cases hg : generate_step tag oC oM i T with
    | error e => rw [hg] at h; cases h
    | ok sT =>
      obtain ⟨stp, T'⟩ := sT
      rw [hg] at h
      dsimp only at h
      cases hr : resolveLoop walls fuel cur stp with
      | error e => rw [hr] at h; cases h
      | ok nxt =>
        rw [hr] at h
        dsimp only at h
        have hnxt : ∀ p ∈ nxt, p ∈ S :=
          resolveLoop_mem hconv hw hcov fuel cur stp nxt hr hcur
        cases hw2 : walkAux walls tag oC oM fuel (i + 1) nxt T' r with
        | error e => rw [hw2] at h; cases h
        | ok rest =>
          rw [hw2] at h
          dsimp only at h
          injection h with h
          subst h
          intro sl hsl
          rcases List.mem_cons.mp hsl with rfl | hsl
          · exact hnxt
          · exact ih (i + 1) nxt T' rest hw2 hnxt sl hsl

/-! ### Per-particle view of a pass and zero-step particles -/

theorem passParticle_def (walls : List Wall) (c s : Pt) :
    passParticle walls c s =
      (if particle_intersected walls c (c + s) then
        current_pos_bounce walls c (c + s) else (c + s),
       if particle_intersected walls c (c + s) then
         next_step_bounce walls c (c + s) else pz,
       particle_intersected walls c (c + s)) := rfl

theorem innerPass_getD {walls : List Wall} {cur stp P Q : List Pt} {b : Bool}
    {j : ℕ} (h : innerPass walls cur stp = .ok (P, Q, b))
    (h1 : j < cur.length) (h2 : j < stp.length) :
    P.getD j pz = (passParticle walls (cur.getD j pz) (stp.getD j pz)).1 ∧
    Q.getD j pz = (passParticle walls (cur.getD j pz) (stp.getD j pz)).2.1 := by
  obtain ⟨-, hP, hQ⟩ := innerPass_ok h
  have hz : j < (cur.zip stp).length := by
    rw [List.length_zip]
    omega
  have hzd : (cur.zip stp).getD j (pz, pz) = (cur.getD j pz, stp.getD j pz) :=
    getD_zip cur stp j h1 h2
  have hm : j < ((cur.zip stp).map fun cs => passParticle walls cs.1 cs.2).length := by
    simpa using hz
  constructor
  · rw [hP, getD_map _ _ j pz (pz, pz, false) hm,
      getD_map _ (cur.zip stp) j (pz, pz, false) (pz, pz) hz, hzd]
  · rw [hQ, getD_map _ _ j pz (pz, pz, false) hm,
      getD_map _ (cur.zip stp) j (pz, pz, false) (pz, pz) hz, hzd]

theorem add_pz (c : Pt) : c + pz = c := by
  apply Prod.ext
  · simp [pz]
  · simp [pz]

/-- A particle whose pending step is the zero vector: the degenerate travel
segment is parallel to every wall (`cross = 0`), so `find_intersection`
reports no intersection, the particle's tentative position equals its
current position, and both are carried over unchanged with a zero step. -/
theorem find_intersection_self (c a b : Pt) :
    find_intersection c c a b = (pz, false) := by
  have hc : cross (c - c) (b - a) = 0 := by
    unfold cross
    simp only [Prod.fst_sub, Prod.snd_sub]
    ring
  simp only [find_intersection]
  rw [if_pos hc]

theorem passParticle_zero (walls : List Wall) (c : Pt) :
    passParticle walls c pz = (c, pz, false) := by
  have hrecs : wall_records c (c + pz) walls =
      walls.map fun _ => ((pz : Pt), false) := by
    rw [add_pz]
    unfold wall_records
    apply List.map_congr_left
    intro w _
    exact find_intersection_self c w.1 w.2
  have hflag : particle_intersected walls c (c + pz) = false := by
    unfold particle_intersected
    rw [hrecs, getD_map_const]
  rw [passParticle_def, hflag]
  simp only [Bool.false_eq_true, if_false]
  rw [add_pz]

theorem resolveLoop_zero_step {walls : List Wall} {j : ℕ} :
    ∀ (f : ℕ) (cur stp res : List Pt), resolveLoop walls f cur stp = .ok res →
      stp.getD j pz = pz → j < cur.length → j < stp.length →
      res.getD j pz = cur.getD j pz := by
  intro f
  induction f with
  | zero =>
    intro cur stp res h
    rw [resolveLoop_zero] at h
    cases h
  | succ f ih =>
    intro cur stp res h hstp h1 h2
    rw [resolveLoop_succ] at h
    cases hin : innerPass walls cur stp with
    | error e => rw [hin] at h; cases h
    | ok triple =>
      obtain ⟨P, Q, b⟩ := triple
      rw [hin] at h
      dsimp only at h
      obtain ⟨hPj, hQj⟩ := innerPass_getD hin h1 h2
      rw [hstp, passParticle_zero] at hPj hQj
      obtain ⟨-, hP, hQ⟩ := innerPass_ok hin
      have hPlen : P.length = min cur.length stp.length := by
        rw [hP]
        simp
      have hQlen : Q.length = min cur.length stp.length := by
        rw [hQ]
        simp
      by_cases hb : b = true
      · rw [if_pos hb] at h
        have := ih P Q res h (by simpa using hQj) (by omega) (by omega)
        rw [this, hPj]
      · rw [if_neg hb] at h
        injection h with h
        subst h
        exact hPj

/-! ### Length preservation -/

theorem resolveLoop_length {walls : List Wall} :
    ∀ (f : ℕ) (cur stp res : List Pt), resolveLoop walls f cur stp = .ok res →
      cur.length = stp.length → res.length = cur.length := by
  intro f
  induction f with
  | zero =>
    intro cur stp res h
    rw [resolveLoop_zero] at h
    cases h
  | succ f ih =>
    intro cur stp res h hlen
    rw [resolveLoop_succ] at h
    cases hin : innerPass walls cur stp with
    | error e => rw [hin] at h; cases h
    | ok triple =>
      obtain ⟨P, Q, b⟩ := triple
      rw [hin] at h
      dsimp only at h
      obtain ⟨-, hP, hQ⟩ := innerPass_ok hin
      have hPlen : P.length = cur.length := by
        rw [hP]
        simp [hlen]
      have hQlen : Q.length = cur.length := by
        rw [hQ]
        simp [hlen]
      by_cases hb : b = true
      · rw [if_pos hb] at h
        rw [ih P Q res h (by omega), hPlen]
      · rw [if_neg hb] at h
        injection h with h
        subst h
        exact hPlen

theorem walkAux_shape {walls : List Wall} {tag : String} {oC : ℕ → List Pt}
    {oM : ℕ → List ℝ → List Pt × List ℝ} {fuel : ℕ} {N : ℕ}
    (hC : ∀ i, (oC i).length = N) (hM : ∀ i T, (oM i T).1.length = N) :
    ∀ (r i : ℕ) (cur : List Pt) (T : List ℝ) (out : List (List Pt)),
      walkAux walls tag oC oM fuel i cur T r = .ok out → cur.length = N →
      out.length = r ∧ ∀ sl ∈ out, sl.length = N := by
  intro r
  induction r with
  | zero =>
    intro i cur T out h hcur
    rw [walkAux_zero] at h
    injection h with h
    subst h
    simp
  | succ r ih =>
    intro i cur T out h hcur
    rw [walkAux_succ] at h
    cases hg : generate_step tag oC oM i T with
    | error e => rw [hg] at h; cases h
    | ok sT =>
      obtain ⟨stp, T'⟩ := sT
      rw [hg] at h
      dsimp only at h
      have hstp : stp.length = N := by
        unfold generate_step at hg
        by_cases h1 : tag = "constant"
        · rw [if_pos h1] at hg
          injection hg with hg
          injection hg with hga hgb
          rw [← hga]
          exact hC i
        · rw [if_neg h1] at hg
          by_cases h2 : tag = "mapped"
          · rw [if_pos h2] at hg
            injection hg with hg
            have hga : (oM i T).1 = stp := congrArg Prod.fst hg
            rw [← hga]
            exact hM i T
          · rw [if_neg h2] at hg
            cases hg
      cases hr : resolveLoop walls fuel cur stp with
      | error e => rw [hr] at h; cases h
      | ok nxt =>
        rw [hr] at h
        dsimp only at h
        have hnxt : nxt.length = N := by
          rw [resolveLoop_length fuel cur stp nxt hr (by omega), hcur]
        cases hw2 : walkAux walls tag oC oM fuel (i + 1) nxt T' r with
        | error e => rw [hw2] at h; cases h
        | ok rest =>
          rw [hw2] at h
          dsimp only at h
          injection h with h
          subst h
          obtain ⟨hr1, hr2⟩ := ih (i + 1) nxt T' rest hw2 hnxt
          refine ⟨by simp [hr1], ?_⟩
          intro sl hsl
          rcases List.mem_cons.mp hsl with rfl | hsl
          · exact hnxt
          · exact hr2 sl hsl

/-! ### Evaluation of the example inputs -/

theorem fi_eval : find_intersection exC exN
    (((-1 : ℝ), (0 : ℝ)) : Pt) (((1 : ℝ), (0 : ℝ)) : Pt) = (pz, true) := by
  simp only [find_intersection]
  have hd : cross (exN - exC) ((((1 : ℝ), (0 : ℝ)) : Pt) - (((-1 : ℝ), (0 : ℝ)) : Pt)) = 2 := by
    unfold cross exC exN
    simp only [Prod.fst_sub, Prod.snd_sub]
    norm_num
  rw [hd]
  rw [if_neg (by norm_num)]
  have ht : cross ((((-1 : ℝ), (0 : ℝ)) : Pt) - exC)
      ((((1 : ℝ), (0 : ℝ)) : Pt) - (((-1 : ℝ), (0 : ℝ)) : Pt)) / 2 = 1 / 2 := by
    unfold cross exC
    simp only [Prod.fst_sub, Prod.snd_sub]
    norm_num
  have hu : cross ((((-1 : ℝ), (0 : ℝ)) : Pt) - exC) (exN - exC) / 2 = 1 / 2 := by
    unfold cross exC exN
    simp only [Prod.fst_sub, Prod.snd_sub]
    norm_num
  rw [ht, hu]
  rw [if_pos (by norm_num)]
  have hp : exC + (1 / 2 : ℝ) • (exN - exC) = pz := by
    unfold exC exN pz
    apply Prod.ext
    · simp only [Prod.fst_add, Prod.smul_fst, Prod.fst_sub, smul_eq_mul]
      norm_num
    · simp only [Prod.snd_add, Prod.smul_snd, Prod.snd_sub, smul_eq_mul]
      norm_num
  rw [hp]

theorem recs_eval : wall_records exC exN exWalls = [(pz, true)] := by
  unfold wall_records exWalls
  simp only [List.map_cons, List.map_nil]
  rw [fi_eval]

theorem idx_eval : closest_idx exWalls exC exN = 0 := by
  unfold closest_idx closest_wall_index
  rw [recs_eval]
  unfold wall_distances
  simp only [List.map_cons, List.map_nil]
  rw [argminIdx_cons]
  rw [if_neg (by simp [argminIdx])]

theorem pi_eval : particle_intersected exWalls exC exN = true := by
  unfold particle_intersected
  rw [recs_eval, idx_eval]
  rfl

theorem ch_eval : closest_hit exWalls exC exN = pz := by
  unfold closest_hit
  rw [recs_eval, idx_eval]
  rfl

theorem refl_eval : reflect_step (((0 : ℝ), (-1 : ℝ)) : Pt)
    ((((-1 : ℝ), (0 : ℝ)) : Pt), (((1 : ℝ), (0 : ℝ)) : Pt)) = ((0 : ℝ), (1 : ℝ)) := by
  unfold reflect_step dot
  apply Prod.ext
  · simp only [Prod.fst_sub, Prod.snd_sub, Prod.smul_fst, smul_eq_mul]
    norm_num
  · simp only [Prod.fst_sub, Prod.snd_sub, Prod.smul_snd, smul_eq_mul]
    norm_num

theorem norm_eval_step : pnorm (exN - exC) = 1 := by
  unfold pnorm exN exC
  simp only [Prod.fst_sub, Prod.snd_sub]
  norm_num

theorem norm_eval_rem : pnorm (pz - exN) = 1 / 2 := by
  unfold pnorm exN pz
  simp only [Prod.fst_sub, Prod.snd_sub]
  rw [show ((0 : ℝ) - 0) ^ 2 + (0 - -(1 / 2)) ^ 2 = (1 / 2 : ℝ) ^ 2 by norm_num]
  exact Real.sqrt_sq (by norm_num)

theorem nsb_eval : next_step_bounce exWalls exC exN =
    ((0 : ℝ), 1 / 2 / (1 + EPS)) := by
  unfold next_step_bounce
  rw [ch_eval, idx_eval, norm_eval_rem]
  rw [show exWalls.getD 0 (pz, pz) =
    (((((-1 : ℝ), (0 : ℝ)) : Pt), (((1 : ℝ), (0 : ℝ)) : Pt)) : Wall) from rfl]
  rw [show exN - exC = (((0 : ℝ), (-1 : ℝ)) : Pt) by
    unfold exN exC
    apply Prod.ext <;> norm_num]
  rw [refl_eval]
  rw [show pnorm (((0 : ℝ), (-1 : ℝ)) : Pt) = 1 by
    unfold pnorm
    norm_num]
  apply Prod.ext
  · simp only [Prod.smul_fst, smul_eq_mul]
    norm_num
  · simp only [Prod.smul_snd, smul_eq_mul]
    norm_num

theorem ip_eval : innerPass [exWallTop] [pz] [pz] = .ok ([pz], [pz], false) := by
  unfold innerPass
  rw [if_neg (by simp)]
  simp only [List.zip_cons_cons, List.zip_nil_right, List.map_cons, List.map_nil]
  rw [passParticle_zero]
  rfl

/-! ### Claim theorems -/

/-- C1: for every run of `diffusion_walk` over a convex wall-bounded domain
(a segment-convex region `S` containing the wall endpoints whose wall set
detects every travel segment leaving `S`), if the initial positions are in
`S`, then every committed timestep slice of the returned position tensor
contains only positions in `S` — no committed position is strictly beyond a
wall it should have reflected off of, for all timesteps and particles. -/
theorem claim1_convex_domain_invariant (S : Set Pt) (X0 : List Pt)
    (T0_vals : List ℝ) (time_final diff : ℝ) (iterations : ℕ)
    (walls : List Wall) (diffusion_model : String) (oC : ℕ → List Pt)
    (oM : ℕ → List ℝ → List Pt × List ℝ) (fuel : ℕ)
    (hconv : SegConvex S) (hw : ∀ w ∈ walls, w.1 ∈ S ∧ w.2 ∈ S)
    (hcov : Covers walls S) (hX0 : ∀ p ∈ X0, p ∈ S) :
    ∀ X, diffusion_walk X0 T0_vals time_final diff iterations walls
        diffusion_model oC oM fuel = .ok X →
      ∀ sl ∈ X, ∀ p ∈ sl, p ∈ S := by
  intro X h sl hsl
  unfold diffusion_walk at h
  cases hd : pyDiv time_final iterations with
  | error e => rw [hd] at h; cases h
  | ok dt =>
    rw [hd] at h
    dsimp only at h
    cases hwk : walkAux walls diffusion_model oC oM fuel 1 X0 T0_vals
        (iterations - 1) with
    | error e => rw [hwk] at h; cases h
    | ok rest =>
      rw [hwk] at h
      dsimp only at h
      injection h with h
      subst h
      rcases List.mem_cons.mp hsl with rfl | hsl
      · exact hX0
      · exact walkAux_mem hconv hw hcov _ 1 X0 T0_vals rest hwk hX0 sl hsl

/-- A concrete two-iteration run used for the C1 witness: one particle at
the origin with zero proposed displacement, one far-away wall. -/
theorem rl_eval : resolveLoop [exWallTop] 5 [pz] [pz] = .ok [pz] := by
  rw [resolveLoop_succ, ip_eval]
  rfl

/-- The whole run of the C1 witness evaluates. -/
theorem run_eval : diffusion_walk [pz] [1] 1 1 2 [exWallTop] "constant"
    (fun _ => [pz]) (fun _ T => ([pz], T)) 5 = .ok [[pz], [pz]] := by
  unfold diffusion_walk
  have hd : pyDiv (1 : ℝ) 2 = .ok ((1 : ℝ) / (2 : ℕ)) := by
    unfold pyDiv
    rw [if_neg (by norm_num)]
  rw [hd]
  dsimp only
  rw [show (2 : ℕ) - 1 = 0 + 1 from rfl, walkAux_succ]
  rw [show generate_step "constant" (fun _ => [pz])
    (fun _ T => ([pz], T)) 1 [1] = .ok ([pz], [1]) from rfl]
  dsimp only
  rw [rl_eval]
  rfl

/-- C1 witness: a concrete run with `S` the whole plane (trivially convex
and wall-bounded), discharging every hypothesis of the invariant and
instantiating its conclusion at the concretely evaluated output. -/
theorem claim1_convex_domain_invariant_witness :
    diffusion_walk [pz] [1] 1 1 2 [exWallTop] "constant"
        (fun _ => [pz]) (fun _ T => ([pz], T)) 5 = .ok [[pz], [pz]] ∧
    (∀ sl ∈ ([[pz], [pz]] : List (List Pt)), ∀ p ∈ sl,
      p ∈ (Set.univ : Set Pt)) :=
  ⟨run_eval,
    claim1_convex_domain_invariant Set.univ [pz] [1] 1 1 2 [exWallTop]
      "constant" (fun _ => [pz]) (fun _ T => ([pz], T)) 5
      (fun p _ q _ t _ _ => Set.mem_univ _)
      (fun w _ => ⟨Set.mem_univ _, Set.mem_univ _⟩)
      (fun p q _ hq => absurd (Set.mem_univ q) hq)
      (fun p _ => Set.mem_univ p) [[pz], [pz]] run_eval⟩

/-- C2: with an empty wall set the claim says one timestep commits
`X0 + step` with no reflection logic; the code instead raises, because
`np.argmin` (line 131) is taken over the empty wall axis.  This theorem
evaluates the model at the failing input: one particle at the origin, one
timestep, no walls — the call returns the `ValueError`, not a position. -/
theorem claim2_empty_wall_set_raises :
    diffusion_walk [pz] [1] 1 1 2 [] "constant"
      (fun _ => [((1 : ℝ), (1 : ℝ))]) (fun _ T => ([((1 : ℝ), (1 : ℝ))], T))
      5 = .error .valueError := rfl

/-- C3 counterexample: two calls identical except for the initial field
values `T0_vals` (1 versus 5, under the `"constant"` model, whose draws are
independent of field values) return identical values, so no part of the
returned value is a field-value tensor whose slice at index 0 equals
`T0_vals`; the function returns only the position tensor (line 227). -/
theorem claim3_counterexample :
    diffusion_walk [pz] [(1 : ℝ)] 1 1 1 [] "constant" (fun _ => [pz])
        (fun _ T => ([pz], T)) 3 =
      diffusion_walk [pz] [(5 : ℝ)] 1 1 1 [] "constant" (fun _ => [pz])
        (fun _ T => ([pz], T)) 3 ∧ (1 : ℝ) ≠ 5 :=
  ⟨rfl, by norm_num⟩

/-- C3 amended: `diffusion_walk` returns the position tensor of shape
N×iterations×2 — `iterations` committed time slices of N two-coordinate
points each, with slice 0 equal to `X0`; the field-value tensor is only
maintained internally and is not part of the return value. -/
theorem claim3_amended_output_shape (X0 : List Pt) (T0_vals : List ℝ)
    (time_final diff : ℝ) (iterations : ℕ) (walls : List Wall) (tag : String)
    (oC : ℕ → List Pt) (oM : ℕ → List ℝ → List Pt × List ℝ) (fuel : ℕ)
    (hC : ∀ i, (oC i).length = X0.length)
    (hM : ∀ i T, (oM i T).1.length = X0.length) :
    ∀ X, diffusion_walk X0 T0_vals time_final diff iterations walls tag
        oC oM fuel = .ok X →
      X.length = iterations ∧ X.getD 0 [] = X0 ∧
        ∀ sl ∈ X, sl.length = X0.length := by
  intro X h
  unfold diffusion_walk at h
  cases hd : pyDiv time_final iterations with
  | error e => rw [hd] at h; cases h
  | ok dt =>
    have hit : iterations ≠ 0 := by
      unfold pyDiv at hd
      by_cases h0 : iterations = 0
      · rw [if_pos h0] at hd
        cases hd
      · exact h0
    rw [hd] at h
    dsimp only at h
    cases hwk : walkAux walls tag oC oM fuel 1 X0 T0_vals (iterations - 1) with
    | error e => rw [hwk] at h; cases h
    | ok rest =>
      rw [hwk] at h
      dsimp only at h
      injection h with h
      subst h
      obtain ⟨hlen, hsl⟩ :=
        walkAux_shape hC hM (iterations - 1) 1 X0 T0_vals rest hwk rfl
      refine ⟨?_, rfl, ?_⟩
      · simp only [List.length_cons, hlen]
        omega
      · intro sl hmem
        rcases List.mem_cons.mp hmem with rfl | hmem
        · rfl
        · exact hsl sl hmem

/-- C3 amended, witness: a concrete one-iteration run, with the conclusion
instantiated at its concretely evaluated output. -/
theorem claim3_amended_output_shape_witness :
    diffusion_walk [pz] [(1 : ℝ)] 1 1 1 [] "constant" (fun _ => [pz])
        (fun _ T => ([pz], T)) 3 = .ok [[pz]] ∧
    (([[pz]] : List (List Pt)).length = 1 ∧
      ([[pz]] : List (List Pt)).getD 0 [] = [pz] ∧
      ∀ sl ∈ ([[pz]] : List (List Pt)), sl.length = 1) :=
  ⟨rfl,
    claim3_amended_output_shape [pz] [(1 : ℝ)] 1 1 1 [] "constant"
      (fun _ => [pz]) (fun _ T => ([pz], T)) 3 (fun _ => rfl) (fun _ _ => rfl)
      [[pz]] rfl⟩

/-- C4 counterexample: a call with the unrecognized diffusion-model tag
`"banana"` and `iterations = 1` does not fail at all — the timestep loop
body never runs, the step generator is never consulted, and the call
returns the initial slice, contradicting "every call ... fails with a
ConfigurationError before any simulation work". -/
theorem claim4_counterexample :
    diffusion_walk [pz] [(1 : ℝ)] 1 1 1 [] "banana" (fun _ => [pz])
      (fun _ T => ([pz], T)) 3 = .ok [[pz]] := rfl

/-- C4 amended: with an unrecognized diffusion-model tag the call fails with
`ConfigurationError` at the first step-generation call inside the timestep
loop — i.e. only when `iterations ≥ 2`, and after the output tensors have
been allocated, not before any simulation work. -/
theorem claim4_amended_config_error (X0 : List Pt) (T0_vals : List ℝ)
    (time_final diff : ℝ) (iterations : ℕ) (walls : List Wall) (tag : String)
    (oC : ℕ → List Pt) (oM : ℕ → List ℝ → List Pt × List ℝ) (fuel : ℕ)
    (h1 : tag ≠ "constant") (h2 : tag ≠ "mapped") (hit : 2 ≤ iterations) :
    diffusion_walk X0 T0_vals time_final diff iterations walls tag oC oM
      fuel = .error .configurationError := by
  unfold diffusion_walk
  have hd : pyDiv time_final iterations = .ok (time_final / iterations) := by
    unfold pyDiv
    rw [if_neg (by omega)]
  rw [hd]
  dsimp only
  rw [show iterations - 1 = (iterations - 2) + 1 by omega, walkAux_succ]
  have hg : generate_step tag oC oM 1 T0_vals = .error .configurationError := by
    unfold generate_step
    rw [if_neg h1, if_neg h2]
  rw [hg]

/-- C4 amended, witness: the unknown tag `"banana"` with two iterations. -/
theorem claim4_amended_config_error_witness :
    diffusion_walk [pz] [(1 : ℝ)] 1 1 2 [] "banana" (fun _ => [pz])
      (fun _ T => ([pz], T)) 3 = .error .configurationError :=
  claim4_amended_config_error [pz] [(1 : ℝ)] 1 1 2 [] "banana"
    (fun _ => [pz]) (fun _ T => ([pz], T)) 3 (by decide) (by decide)
    (by norm_num)

/-- C5 counterexample: a call with an empty particle ensemble (particle
count 0) and a negative diffusion coefficient succeeds and returns the
initial slice — no `InvalidParameter` (or any) error is raised, contrary to
the claim. -/
theorem claim5_counterexample :
    diffusion_walk [] [] 1 (-1) 1 [] "constant" (fun _ => [])
      (fun _ T => ([], T)) 3 = .ok [[]] := rfl

/-- C5 amended: the core validates none of these parameters; the only
failure among them is `iterations = 0`, which raises a `ZeroDivisionError`
while computing `dt = time_final/iterations` (line 76) — not an
`InvalidParameter` error — while a zero particle count or a non-positive
diffusion coefficient raises nothing. -/
theorem claim5_amended_zero_iterations (X0 : List Pt) (T0_vals : List ℝ)
    (time_final diff : ℝ) (walls : List Wall) (tag : String)
    (oC : ℕ → List Pt) (oM : ℕ → List ℝ → List Pt × List ℝ) (fuel : ℕ) :
    diffusion_walk X0 T0_vals time_final diff 0 walls tag oC oM fuel =
      .error .zeroDivisionError := by
  unfold diffusion_walk pyDiv
  rw [if_pos rfl]

/-- C6: in every inner-loop pass, for a particle (at `c`, tentative position
`n`) that intersected at least one wall, the `argmin`-selected wall has its
intersected flag true (a non-intersected wall, carrying infinite distance,
is never selected), and its hit point is at minimal Euclidean distance from
the particle's current position among all intersected walls. -/
theorem claim6_closest_wall_selected (walls : List Wall) (c n : Pt)
    (hm : ∃ m, m < walls.length ∧
      ((wall_records c n walls).getD m (pz, false)).2 = true) :
    particle_intersected walls c n = true ∧
    ∀ m, m < walls.length →
      ((wall_records c n walls).getD m (pz, false)).2 = true →
      pnorm (c - closest_hit walls c n) ≤
        pnorm (c - ((wall_records c n walls).getD m (pz, false)).1) := by
  obtain ⟨m0, hm0, hf0⟩ := hm
  have hrlen : (wall_records c n walls).length = walls.length := by
    simp [wall_records]
  have hdlen : (wall_distances c (wall_records c n walls)).length =
      walls.length := by
    simp [wall_distances, wall_records]
  have hne : wall_distances c (wall_records c n walls) ≠ [] := by
    intro he
    rw [he] at hdlen
    simp at hdlen
    omega
  have hklt : closest_idx walls c n < walls.length := by
    have h := argminIdx_lt _ hne
    rw [hdlen] at h
    exact h
  have hkval : (wall_distances c (wall_records c n walls)).getD
      (closest_idx walls c n) ⊤ =
      (if particle_intersected walls c n then
        ((pnorm (c - closest_hit walls c n) : ℝ) : WithTop ℝ) else ⊤) := by
    unfold wall_distances
    exact getD_map _ _ _ ⊤ (pz, false) (by rw [hrlen]; exact hklt)
  have hmval : ∀ m, m < walls.length →
      ((wall_records c n walls).getD m (pz, false)).2 = true →
      (wall_distances c (wall_records c n walls)).getD m ⊤ =
        ((pnorm (c - ((wall_records c n walls).getD m (pz, false)).1) : ℝ) :
          WithTop ℝ) := by
    intro m hmlt hmf
    unfold wall_distances
    rw [getD_map _ _ m ⊤ (pz, false) (by rw [hrlen]; exact hmlt), hmf]
    simp
  have hkeq : closest_idx walls c n =
      argminIdx (wall_distances c (wall_records c n walls)) := rfl
  have hpi : particle_intersected walls c n = true := by
    by_contra hfalse
    rw [Bool.not_eq_true] at hfalse
    rw [hfalse] at hkval
    simp only [Bool.false_eq_true, if_false] at hkval
    have hle := argminIdx_le (wall_distances c (wall_records c n walls)) m0
    rw [← hkeq, hkval, hmval m0 hm0 hf0] at hle
    exact absurd (top_le_iff.mp hle) (WithTop.coe_ne_top)
  rw [hpi, if_pos rfl] at hkval
  refine ⟨hpi, ?_⟩
  intro m hmlt hmf
  have hle := argminIdx_le (wall_distances c (wall_records c n walls)) m
  rw [← hkeq, hkval, hmval m hmlt hmf] at hle
  exact WithTop.coe_le_coe.mp hle

/-- C6 witness: the single-bounce scenario — one wall on the x-axis, a
particle at (0, 1/2) headed to (0, -1/2); the wall is intersected and is
(trivially) the closest intersected wall. -/
theorem claim6_closest_wall_selected_witness :
    particle_intersected exWalls exC exN = true ∧
    ∀ m, m < exWalls.length →
      ((wall_records exC exN exWalls).getD m (pz, false)).2 = true →
      pnorm (exC - closest_hit exWalls exC exN) ≤
        pnorm (exC - ((wall_records exC exN exWalls).getD m (pz, false)).1) :=
  claim6_closest_wall_selected exWalls exC exN
    ⟨0, by norm_num [exWalls], by rw [recs_eval]; rfl⟩

/-- C7 counterexample: in the single-bounce scenario the reflected pending
step has magnitude `(1/2)/(1 + EPS)`, not the remaining travel distance
`1/2`: because `EPS` is added to the denominator of the rescale, the
magnitude is *not* exactly the remaining distance, contradicting the claim's
"equals exactly". -/
theorem claim7_counterexample :
    particle_intersected exWalls exC exN = true ∧
    pnorm (next_step_bounce exWalls exC exN) ≠
      pnorm (closest_hit exWalls exC exN - exN) := by
  refine ⟨pi_eval, ?_⟩
  rw [nsb_eval, ch_eval, norm_eval_rem]
  have hq : (0 : ℝ) ≤ 1 / 2 / (1 + EPS) := by
    norm_num [EPS]
  have hval : pnorm ((0 : ℝ), 1 / 2 / (1 + EPS)) = 1 / 2 / (1 + EPS) := by
    unfold pnorm
    rw [show (0 : ℝ) ^ 2 + (1 / 2 / (1 + EPS)) ^ 2 = (1 / 2 / (1 + EPS)) ^ 2
      by ring]
    exact Real.sqrt_sq hq
  rw [hval]
  norm_num [EPS]

/-- C7 amended: the reflected pending step's magnitude equals the remaining
travel distance scaled by `total/(total + EPS)` — the epsilon added to the
denominator (which prevents division by zero for a zero-length proposal)
makes the magnitude exactly `remaining * total/(total + EPS)`, equal to the
remaining distance only up to that factor. -/
theorem claim7_amended_step_magnitude (walls : List Wall) (c n : Pt)
    (hpi : particle_intersected walls c n = true) :
    pnorm (next_step_bounce walls c n) =
      pnorm (closest_hit walls c n - n) *
        (pnorm (n - c) / (pnorm (n - c) + EPS)) := by
  unfold next_step_bounce
  rw [pnorm_smul, pnorm_reflect, abs_of_nonneg]
  · ring
  · apply div_nonneg (pnorm_nonneg _)
    have h1 := pnorm_nonneg (n - c)
    have h2 : (0 : ℝ) < EPS := by norm_num [EPS]
    linarith

/-- C7 amended, witness: the single-bounce scenario again. -/
theorem claim7_amended_step_magnitude_witness :
    pnorm (next_step_bounce exWalls exC exN) =
      pnorm (closest_hit exWalls exC exN - exN) *
        (pnorm (exN - exC) / (pnorm (exN - exC) + EPS)) :=
  claim7_amended_step_magnitude exWalls exC exN pi_eval

/-- C8: in every inner-loop pass, a particle flagged as intersected has its
position set to the hit point moved back toward the pre-hit position by the
fraction `EPS` of the vector from pre-hit position to hit point, and its
pending step set to the rescaled mirrored vector; a particle flagged as not
intersected has its tentative position (current + pending step) committed
for the pass, with no further pending step. -/
theorem claim8_pass_update (walls : List Wall) (cur stp P Q : List Pt)
    (b : Bool) (j : ℕ) (h : innerPass walls cur stp = .ok (P, Q, b))
    (h1 : j < cur.length) (h2 : j < stp.length) :
    P.getD j pz =
      (if particle_intersected walls (cur.getD j pz)
          (cur.getD j pz + stp.getD j pz) then
        current_pos_bounce walls (cur.getD j pz)
          (cur.getD j pz + stp.getD j pz)
      else cur.getD j pz + stp.getD j pz) ∧
    Q.getD j pz =
      (if particle_intersected walls (cur.getD j pz)
          (cur.getD j pz + stp.getD j pz) then
        next_step_bounce walls (cur.getD j pz)
          (cur.getD j pz + stp.getD j pz)
      else pz) := by
  obtain ⟨hPj, hQj⟩ := innerPass_getD h h1 h2
  rw [hPj, hQj, passParticle_def]
  exact ⟨rfl, rfl⟩

/-- C8 witness: a concrete pass with one particle at the origin, zero
pending step and one far-away wall. -/
theorem claim8_pass_update_witness :
    ([pz] : List Pt).getD 0 pz =
      (if particle_intersected [exWallTop] (([pz] : List Pt).getD 0 pz)
          (([pz] : List Pt).getD 0 pz + ([pz] : List Pt).getD 0 pz) then
        current_pos_bounce [exWallTop] (([pz] : List Pt).getD 0 pz)
          (([pz] : List Pt).getD 0 pz + ([pz] : List Pt).getD 0 pz)
      else ([pz] : List Pt).getD 0 pz + ([pz] : List Pt).getD 0 pz) ∧
    ([pz] : List Pt).getD 0 pz =
      (if particle_intersected [exWallTop] (([pz] : List Pt).getD 0 pz)
          (([pz] : List Pt).getD 0 pz + ([pz] : List Pt).getD 0 pz) then
        next_step_bounce [exWallTop] (([pz] : List Pt).getD 0 pz)
          (([pz] : List Pt).getD 0 pz + ([pz] : List Pt).getD 0 pz)
      else pz) :=
  claim8_pass_update [exWallTop] [pz] [pz] [pz] [pz] false 0 ip_eval
    (by norm_num) (by norm_num)

/-- C9 counterexample: the `initial_positions` entry produced by
`load_config` (line 44, `np.zeros(number_of_realizations)`) is a flat 1-D
vector, not an N×2 matrix of x-y pairs — no matrix of shape N×2 equals it. -/
theorem claim9_counterexample :
    ¬ ∃ m : List (List ℝ),
      (load_config (fun _ _ => []) (fun c => c)).initial_positions =
        NDArr.mat m ∧
      m.length = (load_config (fun _ _ => []) (fun c => c)).number_of_realizations ∧
      ∀ r ∈ m, r.length = 2 := by
  rintro ⟨m, hm, -, -⟩
  rw [show (load_config (fun _ _ => []) (fun c => c)).initial_positions =
    NDArr.vec (List.replicate (10 ^ 6) 0) from rfl] at hm
  cases hm

/-- C9 amended: for every configuration produced by `load_config` (with or
without overrides), `initial_positions` is a flat 1-D array of N zeros —
one scalar per particle, where N is the configured
`number_of_realizations` — not an N×2 array of x-y coordinate pairs. -/
theorem claim9_amended_initial_positions
    (builder : String → ℝ → List Wall) (overrides : ConfigBase → ConfigBase) :
    (load_config builder overrides).initial_positions =
      NDArr.vec (List.replicate
        (overrides base_config).number_of_realizations 0) ∧
    (List.replicate (overrides base_config).number_of_realizations
      (0 : ℝ)).length = (overrides base_config).number_of_realizations :=
  ⟨rfl, List.length_replicate _ _⟩

/-- C10: in every inner-loop pass, a particle whose intersected flag is
false gets the zero vector as its pending step, and from then on — over any
number of further passes of the same timestep — its tentative new position
(current + pending step) equals its current position, so the position the
loop finally commits for it is unchanged. -/
theorem claim10_zero_step_persistence (walls : List Wall)
    (cur stp P Q : List Pt) (b : Bool) (j : ℕ)
    (h : innerPass walls cur stp = .ok (P, Q, b))
    (h1 : j < cur.length) (h2 : j < stp.length)
    (hflag : particle_intersected walls (cur.getD j pz)
      (cur.getD j pz + stp.getD j pz) = false) :
    Q.getD j pz = pz ∧
    ∀ (f : ℕ) (res : List Pt), resolveLoop walls f P Q = .ok res →
      res.getD j pz = P.getD j pz := by
  obtain ⟨hPj, hQj⟩ := innerPass_getD h h1 h2
  have hQ0 : Q.getD j pz = pz := by
    rw [hQj, passParticle_def, hflag]
    simp
  refine ⟨hQ0, ?_⟩
  intro f res hres
  obtain ⟨-, hP, hQ⟩ := innerPass_ok h
  have hPlen : P.length = min cur.length stp.length := by
    rw [hP]
    simp
  have hQlen : Q.length = min cur.length stp.length := by
    rw [hQ]
    simp
  exact resolveLoop_zero_step f P Q res hres hQ0 (by omega) (by omega)

/-- C10 witness: one particle at the origin with zero pending step and a
far-away wall; its step stays zero and its committed position is its
current position, for any number of further passes. -/
theorem claim10_zero_step_persistence_witness :
    ([pz] : List Pt).getD 0 pz = pz ∧
    ∀ (f : ℕ) (res : List Pt),
      resolveLoop [exWallTop] f [pz] [pz] = .ok res →
      res.getD 0 pz = ([pz] : List Pt).getD 0 pz :=
  claim10_zero_step_persistence [exWallTop] [pz] [pz] [pz] [pz] false 0
    ip_eval (by norm_num) (by norm_num)
    (congrArg (fun t => t.2.2) (passParticle_zero [exWallTop] pz))

end DiffusionSim
